import Mathlib

/-!
Verification of the Mandelbrot terminal renderer (src/main.rs) against its
specification.  The numerical core is shallowly embedded: the Rust `f64`
components are modelled as exact rationals (the spec's zoom, pan and mapping
properties are stated over exact arithmetic), `u16` grid coordinates as `ℕ`,
and the terminal I/O is dropped.
-/

set_option maxRecDepth 1000000

/-- Complex value type `struct C` from main.rs, fields `im` and `re` in source
order; `f64` components modelled as `ℚ`. -/
structure C where
  im : ℚ
  re : ℚ
deriving DecidableEq

/-- Squared magnitude `C::norm`: `self.im * self.im + self.re * self.re`. -/
def C.norm (z : C) : ℚ := z.im * z.im + z.re * z.re

/-- Complex multiplication, `impl Mul for C`. -/
instance : Mul C where
  mul a b := { re := a.re * b.re - a.im * b.im, im := a.re * b.im + a.im * b.re }

/-- Complex addition, `impl Add for C`. -/
instance : Add C where
  add a b := { re := a.re + b.re, im := a.im + b.im }

/-- Conversion `impl From<(f64, f64)> for C`: first component is `re`, second
is `im`.  Named `fromPair` because `from` is a Lean keyword. -/
def C.fromPair (value : ℚ × ℚ) : C := { re := value.1, im := value.2 }

/-- Viewport bounds `((x_min, width), (y_min, height))`, the nested pairs used
throughout main.rs. -/
abbrev Bounds := (ℚ × ℚ) × (ℚ × ℚ)

/-- Coordinate mapper `convert_term_coords` from main.rs:
`x = (term_x / term_width) * width + x_min`, and likewise for `y`. -/
def convert_term_coords (term_x term_y term_width term_height : ℕ)
    (bounds : Bounds) : ℚ × ℚ :=
  ((term_x : ℚ) / (term_width : ℚ) * bounds.1.2 + bounds.1.1,
   (term_y : ℚ) / (term_height : ℚ) * bounds.2.2 + bounds.2.1)

/-- The local constant `max_iterations: u16 = 900` of `check_convergence`. -/
def max_iterations : ℕ := 900

/-- The local constant `cutoff = 10.` of `check_convergence` (a squared
magnitude threshold). -/
def cutoff : ℚ := 10

/-- The `loop` of `check_convergence`, with explicit fuel so the definition is
structurally recursive and executable.  The result `none` means the fuel ran
out; `some r` means the loop returned `r` (`r = some i` for the escape return,
`r = none` for the bounded return).  The theorem for claim C10 shows that fuel
`max_iterations + 2` always suffices, so the fuelled loop is a faithful
rendering of the unbounded Rust `loop`. -/
def convLoop (c : C) : ℕ → C → ℕ → Option (Option ℕ)
  | 0, _, _ => none
  | fuel + 1, z, i =>
    if z.norm > cutoff then some (some i)
    else if i > max_iterations then some none
    else convLoop c fuel (z * z + c) (i + 1)

/-- `check_convergence` from main.rs: iterate `z = z * z + c` from `z = 0`,
returning `some i` when `z.norm() > cutoff` first holds at counter value `i`,
and `none` when the counter exceeds `max_iterations` first. -/
def check_convergence (c : C) : Option ℕ :=
  (convLoop c (max_iterations + 2) { im := 0, re := 0 } 0).join

/-- Exact orbit of the escape-time recurrence: `zOrbit c n` is the value of
`z` at the start of the loop pass whose counter is `i = n`. -/
def zOrbit (c : C) : ℕ → C
  | 0 => { im := 0, re := 0 }
  | n + 1 => zOrbit c n * zOrbit c n + c

/-- Character selection of `push_pixel` from main.rs (the push onto the
`&mut String` buffer is modelled by returning the selected character; the
Rust integer range patterns become chained comparisons). -/
def push_pixel (convergence_result : Option ℕ) : Char :=
  match convergence_result with
  | none => '@'
  | some k =>
    if k ≤ 100 then ' '
    else if k ≤ 200 then '.'
    else if k ≤ 300 then ':'
    else if k ≤ 400 then '-'
    else if k ≤ 500 then '='
    else if k ≤ 600 then '+'
    else if k ≤ 700 then '*'
    else if k ≤ 800 then '#'
    else '%'

/-- Frame buffer built by `draw_mandelbrot` from main.rs: outer loop over
`term_y` (rows top to bottom), inner loop over `term_x` (columns left to
right), one character pushed per cell; the final `draw_buffer` terminal write
is dropped. -/
def draw_mandelbrot (term_width term_height : ℕ) (bounds : Bounds) : List Char :=
  (List.range term_height).flatMap fun term_y =>
    (List.range term_width).map fun term_x =>
      push_pixel (check_convergence (C.fromPair
        (convert_term_coords term_x term_y term_width term_height bounds)))

/-- `scale_origin` from main.rs: `x - f * x + f * x0`. -/
def scale_origin (f x x0 : ℚ) : ℚ := x - f * x + f * x0

/-- `scale_bounds` from main.rs (argument order as in the source:
`f, term_x, term_y, term_height, term_width, bounds`): map the anchor through
`convert_term_coords` under the current bounds, rescale the origins with
`scale_origin` and multiply both extents by `f`. -/
def scale_bounds (f : ℚ) (term_x term_y term_height term_width : ℕ)
    (bounds : Bounds) : Bounds :=
  ((scale_origin f (convert_term_coords term_x term_y term_width term_height bounds).1
      bounds.1.1,
    f * bounds.1.2),
   (scale_origin f (convert_term_coords term_x term_y term_width term_height bounds).2
      bounds.2.1,
    f * bounds.2.2))

/-- Subset of the termion key events relevant to `handle_mouse_events`. -/
inductive TermKey where
  | char (ch : Char)
  | left
  | right
  | up
  | down
  | other
deriving DecidableEq

/-- Arrow-key pan from the `match k` inside `handle_mouse_events`: shift the
corresponding origin by ±(extent * 0.1); every other key is a no-op. -/
def pan_key (k : TermKey) (bounds : Bounds) : Bounds :=
  match k with
  | .right => ((bounds.1.1 + bounds.1.2 * (1 / 10), bounds.1.2), bounds.2)
  | .left => ((bounds.1.1 - bounds.1.2 * (1 / 10), bounds.1.2), bounds.2)
  | .down => (bounds.1, (bounds.2.1 + bounds.2.2 * (1 / 10), bounds.2.2))
  | .up => (bounds.1, (bounds.2.1 - bounds.2.2 * (1 / 10), bounds.2.2))
  | _ => bounds

/-- Termion mouse buttons. -/
inductive MouseBtn where
  | left
  | right
  | middle
  | wheelUp
  | wheelDown
deriving DecidableEq

/-- Input events consumed by `handle_mouse_events`: key events, mouse button
presses carrying grid coordinates, and everything else. -/
inductive TEvent where
  | key (k : TermKey)
  | mousePress (button : MouseBtn) (term_x term_y : ℕ)
  | unsupported

/-- Effect of one event of `handle_mouse_events` on the bounds: `'q'` breaks
the loop (bounds unchanged), any other key pans, a mouse press zooms with
factor `0.5` for the left button and `1.5` for any other button, and all other
events are ignored. -/
def handle_event (term_width term_height : ℕ) (e : TEvent) (bounds : Bounds) :
    Bounds :=
  match e with
  | .key k => if k = TermKey.char 'q' then bounds else pan_key k bounds
  | .mousePress button term_x term_y =>
    scale_bounds
      (match button with
        | .left => 1 / 2
        | _ => 3 / 2)
      term_x term_y term_height term_width bounds
  | .unsupported => bounds

/-- Initial bounds from `main`: `((-3, 4), (-2, 4))`, i.e. x in [-3, 1] and
y in [-2, 2]. -/
def init_bounds : Bounds := ((-3, 4), (-2, 4))

/-- The shading symbols of `push_pixel`: the bounded marker `@` and the nine
escape-band characters. -/
def shading_symbols : List Char := ['@', ' ', '.', ':', '-', '=', '+', '*', '#', '%']

/-- Real orbit of the escape-time recurrence for a parameter on the real
axis.  For `c = { im := 0, re := cr }` the whole orbit of `zOrbit` stays on
the real axis with real parts given by `xOrb cr`. -/
def xOrb (cr : ℚ) : ℕ → ℚ
  | 0 => 0
  | n + 1 => xOrb cr n * xOrb cr n + cr

/-- Outward-rounded interval squaring-and-shift step at integer scale `S`:
if `lo ≤ x * S ≤ hi` then the returned pair bounds `(x * x + cm / S) * S`.
Division is Euclidean division by the positive scale, i.e. floor; the second
component negates twice to round up. -/
def ivStep (S cm lo hi : ℤ) : ℤ × ℤ :=
  (((if lo ≤ 0 ∧ 0 ≤ hi then 0 else min (lo * lo) (hi * hi)) + cm * S) / S,
   -((-(max (lo * lo) (hi * hi) + cm * S)) / S))

/-- Escape certificate checker.  Starting from mantissa bounds for the orbit
point at index `max_iterations + 1 - n`, it checks that every orbit point
through index `max_iterations` has squared value at most `10` and that the
orbit point at index `max_iterations + 1` has squared value above `10`, using
only integer interval arithmetic at scale `S`. -/
def certLoop (S cm : ℤ) : ℕ → ℤ → ℤ → Bool
  | 0, lo, _ => decide (0 ≤ lo) && decide (10 * (S * S) < lo * lo)
  | n + 1, lo, hi =>
    decide (max (lo * lo) (hi * hi) ≤ 10 * (S * S)) &&
      certLoop S cm n (ivStep S cm lo hi).1 (ivStep S cm lo hi).2

/-- Scale of the escape certificate: `2 ^ 2048`. -/
def certS : ℤ := 32317006071311007300714876688669951960444102669715484032130345427524655138867890893197201411522913463688717960921898019494119559150490921095088152386448283120630877367300996091750197750389652106796057638384067568276792218642619756161838094338476170470581645852036305042887575891541065808607552399123930385521914333389668342420684974786564569494856176035326322058077805659331026192708460314150258592864177116725943603718461857357598351152301645904403697613233287231227125684710820209725157101726931323469678542580656697935045997268352998638215525166389437335543602135433229604645318478604952148193555853611059596230656

/-- Mantissa of the certified parameter: `certCm / certS` is a dyadic
rational slightly below `-2` whose orbit stays within the cutoff through
iteration 900 and escapes at iteration 901. -/
def certCm : ℤ := -64634012142622014601429753377339903920888205339430968064260690855049310277735781786394402823045826927377435921843796038988239118300981842190176304772896566241261754734601992183500395500779304213592115276768135136553584437285239512323676188676952340941163291704072610085775151783082131617215104798247860771043828666779336684841369949573129138989712352070652644116155611318662052385416920628300517185728354233451887207436923714715196702304603291808807395226466574462454251369421640419450314203453862646939357085161313395870091994536705997276432855812677276811459827493727371888850132162068218713931978584864382389635030

/-- The certified real parameter with escape index `max_iterations + 1`. -/
def crWitness : ℚ := (certCm : ℚ) / (certS : ℚ)

/-- The complex input witnessing escape index `max_iterations + 1 = 901`. -/
def c901 : C := { im := 0, re := crWitness }

/-- Unfolding lemma for the multiplication instance. -/
lemma C.mul_def (a b : C) :
    a * b = { re := a.re * b.re - a.im * b.im, im := a.re * b.im + a.im * b.re } := rfl

/-- Unfolding lemma for the addition instance. -/
lemma C.add_def (a b : C) : a + b = { re := a.re + b.re, im := a.im + b.im } := rfl

/-- The character selected by `push_pixel` is always a shading symbol. -/
lemma push_pixel_mem_symbols (r : Option ℕ) : push_pixel r ∈ shading_symbols := by
  cases r with
  | none => simp [push_pixel, shading_symbols]
  | some k =>
    simp only [push_pixel]
    split_ifs <;> simp [shading_symbols]

/-- Length of the frame buffer: one character per grid cell. -/
lemma draw_mandelbrot_length (W H : ℕ) (b : Bounds) :
    (draw_mandelbrot W H b).length = H * W := by
  simp [draw_mandelbrot, List.length_flatMap, Function.comp_def, List.map_const',
    List.sum_replicate, smul_eq_mul]

/-- The width extent is untouched by any key pan. -/
lemma pan_key_width (k : TermKey) (b : Bounds) : (pan_key k b).1.2 = b.1.2 := by
  cases k <;> rfl

/-- The height extent is untouched by any key pan. -/
lemma pan_key_height (k : TermKey) (b : Bounds) : (pan_key k b).2.2 = b.2.2 := by
  cases k <;> rfl

/-- Totality invariant of the fuelled loop: with more than
`max_iterations + 1 - i` passes of fuel available the loop returns, and any
escape index it returns is at most `max i (max_iterations + 1)`. -/
lemma convLoop_total (c : C) :
    ∀ (fuel i : ℕ) (z : C), 0 < fuel → max_iterations + 1 < i + fuel →
      ∃ r, convLoop c fuel z i = some r ∧
        ∀ k, r = some k → k ≤ max i (max_iterations + 1) := by
  intro fuel
  induction fuel with
  | zero => intro i z h _; omega
  | succ fuel ih =>
    intro i z _ hbound
    simp only [convLoop]
    split
    · exact ⟨some i, rfl, fun k hk => by
        cases hk
        exact le_max_left _ _⟩
    · split
      · exact ⟨none, rfl, fun k hk => by cases hk⟩
      · have hi : ¬ i > max_iterations := by assumption
        have h1 : 0 < fuel := by omega
        obtain ⟨r, hr, hk⟩ := ih (i + 1) (z * z + c) h1 (by omega)
        refine ⟨r, hr, fun k hk' => ?_⟩
        have := hk k hk'
        have hmi : max_iterations = 900 := rfl
        omega

/-- If the orbit stays within the cutoff strictly before pass `n` and exceeds
it at pass `n ≤ max_iterations + 1`, the loop reports escape index `n`. -/
lemma convLoop_escape (c : C) (n : ℕ) (hn : n ≤ max_iterations + 1)
    (hbelow : ∀ j, j < n → (zOrbit c j).norm ≤ cutoff)
    (hesc : cutoff < (zOrbit c n).norm) :
    check_convergence c = some n := by
  suffices h : ∀ (fuel i : ℕ), i ≤ n → n - i < fuel →
      convLoop c fuel (zOrbit c i) i = some (some n) by
    have h0 := h (max_iterations + 2) 0 (Nat.zero_le n) (by omega)
    rw [check_convergence, show ({ im := 0, re := 0 } : C) = zOrbit c 0 from rfl, h0]
    rfl
  intro fuel
  induction fuel with
  | zero => intro i h1 h2; omega
  | succ fuel ih =>
    intro i h1 h2
    by_cases hin : i = n
    · subst hin
      simp only [convLoop]
      rw [if_pos hesc]
    · have hlt : i < n := lt_of_le_of_ne h1 hin
      have hle : (zOrbit c i).norm ≤ cutoff := hbelow i hlt
      have hmi : max_iterations = 900 := rfl
      simp only [convLoop]
      rw [if_neg (not_lt.2 hle), if_neg (by omega : ¬ i > max_iterations),
        show zOrbit c i * zOrbit c i + c = zOrbit c (i + 1) from rfl]
      exact ih (i + 1) hlt (by omega)

/-- A loop whose orbit stays within the cutoff through index
`max_iterations + 1` returns the bounded result. -/
lemma convLoop_bounded (c : C)
    (hbelow : ∀ j, j ≤ max_iterations + 1 → (zOrbit c j).norm ≤ cutoff) :
    check_convergence c = none := by
  suffices h : ∀ (fuel i : ℕ), i ≤ max_iterations + 1 →
      max_iterations + 1 - i < fuel →
      convLoop c fuel (zOrbit c i) i = some none by
    have h0 := h (max_iterations + 2) 0 (by omega) (by omega)
    rw [check_convergence, show ({ im := 0, re := 0 } : C) = zOrbit c 0 from rfl, h0]
    rfl
  intro fuel
  induction fuel with
  | zero => intro i h1 h2; omega
  | succ fuel ih =>
    intro i h1 h2
    simp only [convLoop]
    rw [if_neg (not_lt.2 (hbelow i h1))]
    by_cases hi : i > max_iterations
    · rw [if_pos hi]
    · rw [if_neg hi, show zOrbit c i * zOrbit c i + c = zOrbit c (i + 1) from rfl]
      have hmi : max_iterations = 900 := rfl
      exact ih (i + 1) (by omega) (by omega)

/-- The orbit of the origin is constantly zero. -/
lemma zOrbit_zero (j : ℕ) :
    zOrbit { im := 0, re := 0 } j = { im := 0, re := 0 } := by
  induction j with
  | zero => rfl
  | succ j ih =>
    rw [zOrbit, ih, C.mul_def, C.add_def]
    norm_num

/-- Evaluation of the convergence test at the sample point `(2, 2)`. -/
lemma two_two_eval : check_convergence (C.fromPair (2, 2)) = some 2 := by
  have e1 : zOrbit (C.fromPair (2, 2)) 1 = { im := 2, re := 2 } := by
    rw [show (1 : ℕ) = 0 + 1 from rfl, zOrbit]
    rw [show zOrbit (C.fromPair (2, 2)) 0 = { im := 0, re := 0 } from rfl]
    rw [C.mul_def, C.add_def, C.fromPair]
    norm_num
  have e2 : zOrbit (C.fromPair (2, 2)) 2 = { im := 10, re := 2 } := by
    rw [show (2 : ℕ) = 1 + 1 from rfl, zOrbit, e1, C.mul_def, C.add_def, C.fromPair]
    norm_num
  apply convLoop_escape
  · norm_num [max_iterations]
  · intro j hj
    interval_cases j
    · rw [show zOrbit (C.fromPair (2, 2)) 0 = { im := 0, re := 0 } from rfl]
      norm_num [C.norm, cutoff]
    · rw [e1]
      norm_num [C.norm, cutoff]
  · rw [e2]
    norm_num [C.norm, cutoff]

/-- Orbits of real parameters stay real, with real parts given by `xOrb`. -/
lemma zOrbit_real (cr : ℚ) (n : ℕ) :
    zOrbit { im := 0, re := cr } n = { im := 0, re := xOrb cr n } := by
  induction n with
  | zero => rfl
  | succ n ih =>
    rw [zOrbit, xOrb, ih, C.mul_def, C.add_def]
    simp only [C.mk.injEq]
    constructor <;> ring

/-- Squared magnitude along a real orbit. -/
lemma zOrbit_real_norm (cr : ℚ) (n : ℕ) :
    (zOrbit { im := 0, re := cr } n).norm = xOrb cr n * xOrb cr n := by
  rw [zOrbit_real, C.norm]
  ring

/-- Floor property of Euclidean division by a positive integer. -/
lemma ediv_mul_le_self {S : ℤ} (hS : 0 < S) (a : ℤ) : a / S * S ≤ a := by
  have h1 := Int.ediv_add_emod a S
  have h2 := Int.emod_nonneg a (ne_of_gt hS)
  nlinarith [h1, h2]

/-- Ceiling property: negating, flooring and negating again rounds up. -/
lemma self_le_neg_ediv_neg_mul {S : ℤ} (hS : 0 < S) (a : ℤ) :
    a ≤ -(-a / S) * S := by
  have := ediv_mul_le_self hS (-a)
  nlinarith [this]

/-- Lower bound of the interval square. -/
lemma sq_interval_lower {a b : ℤ} {u : ℚ} (h1 : (a : ℚ) ≤ u) (h2 : u ≤ (b : ℚ)) :
    (((if a ≤ 0 ∧ 0 ≤ b then 0 else min (a * a) (b * b)) : ℤ) : ℚ) ≤ u * u := by
  split_ifs with hab
  · push_cast
    nlinarith [mul_self_nonneg u]
  · rcases not_and_or.1 hab with ha | hb
    · have ha' : 0 < a := by omega
      have haq : (0 : ℚ) < (a : ℚ) := by exact_mod_cast ha'
      have hminq : ((min (a * a) (b * b) : ℤ) : ℚ) ≤ (a : ℚ) * a := by
        exact_mod_cast min_le_left (a * a) (b * b)
      nlinarith [hminq, haq, h1]
    · have hb' : b < 0 := by omega
      have hbq : ((b : ℚ)) < 0 := by exact_mod_cast hb'
      have hminq : ((min (a * a) (b * b) : ℤ) : ℚ) ≤ (b : ℚ) * b := by
        exact_mod_cast min_le_right (a * a) (b * b)
      nlinarith [hminq, hbq, h2]

/-- Upper bound of the interval square. -/
lemma sq_interval_upper {a b : ℤ} {u : ℚ} (h1 : (a : ℚ) ≤ u) (h2 : u ≤ (b : ℚ)) :
    u * u ≤ ((max (a * a) (b * b) : ℤ) : ℚ) := by
  rcases le_or_lt 0 u with hu | hu
  · have hmaxq : ((b : ℚ)) * b ≤ ((max (a * a) (b * b) : ℤ) : ℚ) := by
      exact_mod_cast le_max_right (a * a) (b * b)
    nlinarith [hmaxq, hu, h2]
  · have hmaxq : ((a : ℚ)) * a ≤ ((max (a * a) (b * b) : ℤ) : ℚ) := by
      exact_mod_cast le_max_left (a * a) (b * b)
    nlinarith [hmaxq, hu, h1]

/-- First component of `ivStep`. -/
lemma ivStep_fst (S cm lo hi : ℤ) :
    (ivStep S cm lo hi).1 =
      ((if lo ≤ 0 ∧ 0 ≤ hi then 0 else min (lo * lo) (hi * hi)) + cm * S) / S := rfl

/-- Second component of `ivStep`. -/
lemma ivStep_snd (S cm lo hi : ℤ) :
    (ivStep S cm lo hi).2 = -(-(max (lo * lo) (hi * hi) + cm * S) / S) := rfl

/-- Soundness of one interval step: mantissa bounds for `x` become mantissa
bounds for `x * x + cm / S`. -/
lemma ivStep_sound {S cm lo hi : ℤ} (hS : 0 < S) {x : ℚ}
    (h1 : (lo : ℚ) ≤ x * S) (h2 : x * S ≤ (hi : ℚ)) :
    (((ivStep S cm lo hi).1 : ℤ) : ℚ) ≤ (x * x + (cm : ℚ) / S) * S ∧
      (x * x + (cm : ℚ) / S) * S ≤ (((ivStep S cm lo hi).2 : ℤ) : ℚ) := by
  have hSq : (0 : ℚ) < (S : ℚ) := by exact_mod_cast hS
  have hSne : (S : ℚ) ≠ 0 := ne_of_gt hSq
  have hy : (x * x + (cm : ℚ) / S) * S * S = (x * S) * (x * S) + (cm : ℚ) * S := by
    field_simp
    ring
  constructor
  · rw [ivStep_fst]
    set A : ℤ := (if lo ≤ 0 ∧ 0 ≤ hi then 0 else min (lo * lo) (hi * hi)) + cm * S
      with hA
    have hAle : (A : ℚ) ≤ (x * S) * (x * S) + (cm : ℚ) * S := by
      have hsq := sq_interval_lower h1 h2
      rw [hA]
      push_cast [Int.cast_add, Int.cast_mul]
      push_cast at hsq
      linarith [hsq]
    have hfloorq : ((A / S : ℤ) : ℚ) * S ≤ (A : ℚ) := by
      exact_mod_cast ediv_mul_le_self hS A
    have hmul : ((A / S : ℤ) : ℚ) * S ≤ ((x * x + (cm : ℚ) / S) * S) * S := by
      rw [show ((x * x + (cm : ℚ) / S) * S) * S = (x * x + (cm : ℚ) / S) * S * S
        from rfl, hy]
      linarith [hfloorq, hAle]
    exact le_of_mul_le_mul_right hmul hSq
  · rw [ivStep_snd]
    set B : ℤ := max (lo * lo) (hi * hi) + cm * S with hB
    have hBge : (x * S) * (x * S) + (cm : ℚ) * S ≤ (B : ℚ) := by
      have hsq := sq_interval_upper h1 h2
      rw [hB]
      push_cast [Int.cast_add, Int.cast_mul]
      push_cast at hsq
      linarith [hsq]
    have hceilq : (B : ℚ) ≤ ((-(-B / S) : ℤ) : ℚ) * S := by
      exact_mod_cast self_le_neg_ediv_neg_mul hS B
    have hmul : ((x * x + (cm : ℚ) / S) * S) * S ≤ ((-(-B / S) : ℤ) : ℚ) * S := by
      rw [show ((x * x + (cm : ℚ) / S) * S) * S = (x * x + (cm : ℚ) / S) * S * S
        from rfl, hy]
      linarith [hceilq, hBge]
    exact le_of_mul_le_mul_right hmul hSq

/-- Soundness of the escape certificate: a successful check of `certLoop`
bounds the real orbit through index `max_iterations` by the cutoff and forces
it above the cutoff at index `max_iterations + 1`. -/
lemma certLoop_sound (S cm : ℤ) (hS : 0 < S) (cr : ℚ)
    (hc : (cm : ℚ) = cr * S) :
    ∀ (n j : ℕ) (lo hi : ℤ), j + n = max_iterations + 1 →
      (lo : ℚ) ≤ xOrb cr j * S → xOrb cr j * S ≤ (hi : ℚ) →
      certLoop S cm n lo hi = true →
      (∀ m, j ≤ m → m ≤ max_iterations → xOrb cr m * xOrb cr m ≤ cutoff) ∧
        cutoff < xOrb cr (max_iterations + 1) * xOrb cr (max_iterations + 1) := by
  have hSq : (0 : ℚ) < (S : ℚ) := by exact_mod_cast hS
  have hSne : (S : ℚ) ≠ 0 := ne_of_gt hSq
  have hSS : (0 : ℚ) < (S : ℚ) * S := by positivity
  have hmi : max_iterations = 900 := rfl
  intro n
  induction n with
  | zero =>
    intro j lo hi hj h1 h2 hcert
    simp only [certLoop, Bool.and_eq_true, decide_eq_true_eq] at hcert
    obtain ⟨hlo0, hgt⟩ := hcert
    have hj' : j = max_iterations + 1 := by omega
    subst hj'
    refine ⟨fun m hm1 hm2 => by omega, ?_⟩
    have hlo0q : (0 : ℚ) ≤ (lo : ℚ) := by exact_mod_cast hlo0
    have hgtq : 10 * ((S : ℚ) * S) < (lo : ℚ) * lo := by exact_mod_cast hgt
    have h3 : (lo : ℚ) * lo ≤
        (xOrb cr (max_iterations + 1) * S) * (xOrb cr (max_iterations + 1) * S) :=
      mul_le_mul h1 h1 hlo0q (hlo0q.trans h1)
    have h4 : 10 * ((S : ℚ) * S) <
        (xOrb cr (max_iterations + 1) * xOrb cr (max_iterations + 1)) *
          ((S : ℚ) * S) := by nlinarith [h3, hgtq]
    have h5 := lt_of_mul_lt_mul_right h4 (le_of_lt hSS)
    simpa [cutoff] using h5
  | succ n ih =>
    intro j lo hi hj h1 h2 hcert
    simp only [certLoop, Bool.and_eq_true, decide_eq_true_eq] at hcert
    obtain ⟨hchk, hrest⟩ := hcert
    have hchkq : ((max (lo * lo) (hi * hi) : ℤ) : ℚ) ≤ 10 * ((S : ℚ) * S) := by
      exact_mod_cast hchk
    have hband : xOrb cr j * xOrb cr j ≤ cutoff := by
      have hu := sq_interval_upper h1 h2
      have h4 : (xOrb cr j * xOrb cr j) * ((S : ℚ) * S) ≤ 10 * ((S : ℚ) * S) := by
        nlinarith [hu, hchkq]
      have h5 := le_of_mul_le_mul_right h4 hSS
      simpa [cutoff] using h5
    obtain ⟨hlo', hhi'⟩ := @ivStep_sound S cm lo hi hS (xOrb cr j) h1 h2
    have hnext : xOrb cr j * xOrb cr j + (cm : ℚ) / S = xOrb cr (j + 1) := by
      rw [hc, mul_div_cancel_right₀ _ hSne, xOrb]
    rw [hnext] at hlo' hhi'
    have hih := ih (j + 1) (ivStep S cm lo hi).1 (ivStep S cm lo hi).2
      (by omega) hlo' hhi' hrest
    refine ⟨fun m hm1 hm2 => ?_, hih.2⟩
    rcases eq_or_lt_of_le hm1 with rfl | hm
    · exact hband
    · exact hih.1 m hm hm2

/-- Positivity of the certificate scale. -/
lemma certS_pos : (0 : ℤ) < certS := by decide

/-- Execution of the escape certificate at the chosen parameter. -/
lemma cert_eval : certLoop certS certCm (max_iterations + 1) 0 0 = true := by decide

/-- Certified orbit bounds for `crWitness`: within the cutoff through index
900, above the cutoff at index 901. -/
lemma crWitness_orbit :
    (∀ m, m ≤ max_iterations → xOrb crWitness m * xOrb crWitness m ≤ cutoff) ∧
      cutoff < xOrb crWitness (max_iterations + 1) *
        xOrb crWitness (max_iterations + 1) := by
  have hS := certS_pos
  have hSne : ((certS : ℤ) : ℚ) ≠ 0 := by
    have : (0 : ℚ) < ((certS : ℤ) : ℚ) := by exact_mod_cast hS
    exact ne_of_gt this
  have hc : (certCm : ℚ) = crWitness * certS := by
    rw [crWitness, div_mul_cancel₀ _ hSne]
  have h := certLoop_sound certS certCm hS crWitness hc (max_iterations + 1) 0 0 0
    (by omega) (by norm_num [xOrb]) (by norm_num [xOrb]) cert_eval
  exact ⟨fun m hm => h.1 m (Nat.zero_le m) hm, h.2⟩

/-- C2: zoom anchoring.  For a viewport with positive extents and an anchor
grid position inside the grid, mapping the anchor under the viewport returned
by `scale_bounds` yields exactly the same plane point as mapping it under the
old viewport (over the exact-arithmetic embedding). -/
theorem C2_zoom_anchoring (f : ℚ) (term_x term_y term_width term_height : ℕ)
    (b : Bounds) (_hw : 0 < b.1.2) (_hh : 0 < b.2.2)
    (_hx : term_x < term_width) (_hy : term_y < term_height) :
    convert_term_coords term_x term_y term_width term_height
        (scale_bounds f term_x term_y term_height term_width b) =
      convert_term_coords term_x term_y term_width term_height b := by
  simp only [convert_term_coords, scale_bounds, scale_origin, Prod.mk.injEq]
  constructor <;> ring

/-- Witness for C2 at a concrete zoom-in on the initial viewport. -/
theorem C2_zoom_anchoring_witness :
    convert_term_coords 3 4 10 10 (scale_bounds (1 / 2) 3 4 10 10 init_bounds) =
      convert_term_coords 3 4 10 10 init_bounds :=
  C2_zoom_anchoring (1 / 2) 3 4 10 10 init_bounds (by decide) (by decide)
    (by decide) (by decide)

/-- C3: the coordinate mapper computes exactly the affine formula
`plane = (grid / gridExtent) * extent + origin` on every in-range grid
position, and maps grid position `(0, 0)` to `(x_min, y_min)` for positive
grid dimensions. -/
theorem C3_coordinate_mapper_formula :
    (∀ (grid_x grid_y grid_width grid_height : ℕ) (vp : Bounds),
        grid_x < grid_width → grid_y < grid_height →
        convert_term_coords grid_x grid_y grid_width grid_height vp =
          ((grid_x : ℚ) / (grid_width : ℚ) * vp.1.2 + vp.1.1,
           (grid_y : ℚ) / (grid_height : ℚ) * vp.2.2 + vp.2.1)) ∧
    (∀ (W H : ℕ) (vp : Bounds), 0 < W → 0 < H →
        convert_term_coords 0 0 W H vp = (vp.1.1, vp.2.1)) := by
  constructor
  · intro _ _ _ _ _ _ _
    rfl
  · intro W H vp _ _
    simp [convert_term_coords]

/-- Witness for C3 at concrete grid positions of the initial viewport. -/
theorem C3_coordinate_mapper_formula_witness :
    convert_term_coords 2 3 5 7 init_bounds =
      ((2 : ℚ) / 5 * 4 + -3, (3 : ℚ) / 7 * 4 + -2) ∧
    convert_term_coords 0 0 5 7 init_bounds = (-3, -2) :=
  ⟨C3_coordinate_mapper_formula.1 2 3 5 7 init_bounds (by decide) (by decide),
   C3_coordinate_mapper_formula.2 5 7 init_bounds (by decide) (by decide)⟩

/-- C4 counterexample: evaluating the point `c = (2, 2)` does not return
escape index 0 (after the first update `z = c` has squared magnitude
`8 ≤ 10`, so the escape test fails at counter values 0 and 1). -/
theorem C4_two_two_not_zero :
    check_convergence (C.fromPair (2, 2)) ≠ some 0 := by
  rw [two_two_eval]
  simp

/-- C4 amended: evaluating the point `c = (2, 2)` returns escape index 2
(`z` reaches `2 + 10i`, squared magnitude 104, at counter value 2). -/
theorem C4_two_two_escapes_at_two :
    check_convergence (C.fromPair (2, 2)) = some 2 := two_two_eval

/-- C5: the shading policy maps the bounded result to `@` and each escape
band of width 100 to its character, for every escape count `k`. -/
theorem C5_shading_policy :
    push_pixel none = '@' ∧
    (∀ k : ℕ, k ≤ 100 → push_pixel (some k) = ' ') ∧
    (∀ k : ℕ, 101 ≤ k → k ≤ 200 → push_pixel (some k) = '.') ∧
    (∀ k : ℕ, 201 ≤ k → k ≤ 300 → push_pixel (some k) = ':') ∧
    (∀ k : ℕ, 301 ≤ k → k ≤ 400 → push_pixel (some k) = '-') ∧
    (∀ k : ℕ, 401 ≤ k → k ≤ 500 → push_pixel (some k) = '=') ∧
    (∀ k : ℕ, 501 ≤ k → k ≤ 600 → push_pixel (some k) = '+') ∧
    (∀ k : ℕ, 601 ≤ k → k ≤ 700 → push_pixel (some k) = '*') ∧
    (∀ k : ℕ, 701 ≤ k → k ≤ 800 → push_pixel (some k) = '#') ∧
    (∀ k : ℕ, 801 ≤ k → push_pixel (some k) = '%') := by
  refine ⟨rfl, ?_, ?_, ?_, ?_, ?_, ?_, ?_, ?_, ?_⟩ <;>
    · intro k
      intros
      simp only [push_pixel]
      split_ifs <;> first | rfl | omega

/-- Witness for C5 in the `.` band and the `%` tail. -/
theorem C5_shading_policy_witness :
    push_pixel (some 150) = '.' ∧ push_pixel (some 850) = '%' :=
  ⟨C5_shading_policy.2.2.1 150 (by decide) (by decide),
   C5_shading_policy.2.2.2.2.2.2.2.2.2 850 (by decide)⟩

/-- C6: each directional pan changes exactly one origin component by exactly
±10% of the corresponding extent and leaves both extents unchanged, and any
finite sequence of directional pans leaves both extents unchanged. -/
theorem C6_directional_pan :
    (∀ b : Bounds, pan_key .right b = ((b.1.1 + b.1.2 * (1 / 10), b.1.2), b.2)) ∧
    (∀ b : Bounds, pan_key .left b = ((b.1.1 - b.1.2 * (1 / 10), b.1.2), b.2)) ∧
    (∀ b : Bounds, pan_key .down b = (b.1, (b.2.1 + b.2.2 * (1 / 10), b.2.2))) ∧
    (∀ b : Bounds, pan_key .up b = (b.1, (b.2.1 - b.2.2 * (1 / 10), b.2.2))) ∧
    (∀ (ks : List TermKey) (b : Bounds),
      (∀ k ∈ ks, k = TermKey.left ∨ k = TermKey.right ∨
        k = TermKey.up ∨ k = TermKey.down) →
      (ks.foldl (fun acc k => pan_key k acc) b).1.2 = b.1.2 ∧
      (ks.foldl (fun acc k => pan_key k acc) b).2.2 = b.2.2) := by
  refine ⟨fun _ => rfl, fun _ => rfl, fun _ => rfl, fun _ => rfl, ?_⟩
  intro ks
  induction ks with
  | nil => exact fun _ _ => ⟨rfl, rfl⟩
  | cons k ks ih =>
    intro b hk
    have h1 := ih (pan_key k b) fun k' hk' => hk k' (List.mem_cons_of_mem _ hk')
    rw [List.foldl_cons]
    exact ⟨h1.1.trans (pan_key_width k b), h1.2.trans (pan_key_height k b)⟩

/-- Witness for C6: a concrete two-pan sequence preserves the extents. -/
theorem C6_directional_pan_witness :
    ([TermKey.right, TermKey.up].foldl (fun acc k => pan_key k acc)
        init_bounds).1.2 = init_bounds.1.2 ∧
    ([TermKey.right, TermKey.up].foldl (fun acc k => pan_key k acc)
        init_bounds).2.2 = init_bounds.2.2 :=
  C6_directional_pan.2.2.2.2 [TermKey.right, TermKey.up] init_bounds (by decide)

/-- C7: the initial viewport has strictly positive extents, and every
event-handling step (pan or anchored zoom with factor 0.5 or 1.5) preserves
strict positivity of both extents. -/
theorem C7_viewport_nondegenerate :
    (0 < init_bounds.1.2 ∧ 0 < init_bounds.2.2) ∧
    (∀ (term_width term_height : ℕ) (e : TEvent) (b : Bounds),
      0 < b.1.2 → 0 < b.2.2 →
      0 < (handle_event term_width term_height e b).1.2 ∧
      0 < (handle_event term_width term_height e b).2.2) := by
  refine ⟨⟨by norm_num [init_bounds], by norm_num [init_bounds]⟩, ?_⟩
  intro W H e b hw hh
  cases e with
  | key k =>
    simp only [handle_event]
    split
    · exact ⟨hw, hh⟩
    · rw [pan_key_width, pan_key_height]
      exact ⟨hw, hh⟩
  | mousePress button tx ty =>
    cases button <;>
      · simp only [handle_event, scale_bounds]
        exact ⟨mul_pos (by norm_num) hw, mul_pos (by norm_num) hh⟩
  | unsupported => exact ⟨hw, hh⟩

/-- Witness for C7 at a concrete left-button zoom from the initial viewport. -/
theorem C7_viewport_nondegenerate_witness :
    0 < (handle_event 10 10 (TEvent.mousePress MouseBtn.left 3 4) init_bounds).1.2 ∧
    0 < (handle_event 10 10 (TEvent.mousePress MouseBtn.left 3 4) init_bounds).2.2 :=
  C7_viewport_nondegenerate.2 10 10 (TEvent.mousePress MouseBtn.left 3 4)
    init_bounds (by decide) (by decide)

/-- C8: the origin `c = (0, 0)` never escapes: the loop runs the counter past
`max_iterations` with `z` pinned at 0 and returns the bounded result. -/
theorem C8_origin_bounded :
    check_convergence { im := 0, re := 0 } = none := by
  apply convLoop_bounded
  intro j _
  rw [zOrbit_zero]
  norm_num [C.norm, cutoff]

/-- C9: rendering a 10×10 grid over the initial viewport yields a frame
buffer of exactly 100 characters, each of them a defined shading symbol. -/
theorem C9_end_to_end :
    (draw_mandelbrot 10 10 init_bounds).length = 100 ∧
    ∀ ch ∈ draw_mandelbrot 10 10 init_bounds, ch ∈ shading_symbols := by
  constructor
  · rw [draw_mandelbrot_length]
  · intro ch hch
    simp only [draw_mandelbrot] at hch
    obtain ⟨y, -, hy⟩ := List.mem_flatMap.1 hch
    obtain ⟨x, -, rfl⟩ := List.mem_map.1 hy
    exact push_pixel_mem_symbols _

/-- Witness for C9: the top-left cell of the rendered frame is the blank
escape symbol, which the theorem places among the shading symbols. -/
theorem C9_end_to_end_witness : ' ' ∈ shading_symbols := by
  apply C9_end_to_end.2
  simp only [draw_mandelbrot, List.mem_flatMap, List.mem_map]
  refine ⟨0, by decide, 0, by decide, ?_⟩
  have hc : C.fromPair (convert_term_coords 0 0 10 10 init_bounds) =
      { im := -2, re := -3 } := by
    rw [C.fromPair, convert_term_coords, init_bounds]
    norm_num
  have h1 : check_convergence { im := -2, re := -3 } = some 1 := by
    have e1 : zOrbit { im := -2, re := -3 } 1 = { im := -2, re := -3 } := by
      rw [show (1 : ℕ) = 0 + 1 from rfl, zOrbit]
      rw [show zOrbit ({ im := -2, re := -3 } : C) 0 = { im := 0, re := 0 } from rfl]
      rw [C.mul_def, C.add_def]
      norm_num
    apply convLoop_escape
    · norm_num [max_iterations]
    · intro j hj
      interval_cases j
      rw [show zOrbit ({ im := -2, re := -3 } : C) 0 = { im := 0, re := 0 } from rfl]
      norm_num [C.norm, cutoff]
    · rw [e1]
      norm_num [C.norm, cutoff]
  rw [hc, h1]
  rfl

/-- C10: the convergence loop terminates for every input within
`max_iterations + 2` passes: given that much fuel it always returns. -/
theorem C10_loop_terminates (c : C) :
    ∃ r, convLoop c (max_iterations + 2) { im := 0, re := 0 } 0 = some r := by
  obtain ⟨r, hr, -⟩ :=
    convLoop_total c (max_iterations + 2) 0 { im := 0, re := 0 }
      (by norm_num) (by norm_num)
  exact ⟨r, hr⟩

/-- C1 amended: every convergence evaluation returns either the bounded
result or an escape index `k ≤ max_iterations + 1` (the index
`max_iterations + 1` is reachable, because the escape test precedes the
counter test in the loop body). -/
theorem C1_result_range (c : C) :
    check_convergence c = none ∨
      ∃ k, k ≤ max_iterations + 1 ∧ check_convergence c = some k := by
  obtain ⟨r, hr, hk⟩ :=
    convLoop_total c (max_iterations + 2) 0 { im := 0, re := 0 }
      (by norm_num) (by norm_num)
  rw [check_convergence, hr]
  cases r with
  | none => exact Or.inl rfl
  | some k =>
    refine Or.inr ⟨k, ?_, rfl⟩
    have := hk k rfl
    simpa using this

/-- C1 counterexample: the concrete input `c901` produces the escape index
`max_iterations + 1 = 901`, strictly above `max_iterations`, so escape
indices above `max_iterations` are possible. -/
theorem C1_escape_index_counterexample :
    check_convergence c901 = some (max_iterations + 1) ∧
      max_iterations < max_iterations + 1 := by
  refine ⟨?_, by omega⟩
  apply convLoop_escape
  · exact le_rfl
  · intro j hj
    rw [show c901 = { im := 0, re := crWitness } from rfl, zOrbit_real_norm]
    have hmi : max_iterations = 900 := rfl
    exact crWitness_orbit.1 j (by omega)
  · rw [show c901 = { im := 0, re := crWitness } from rfl, zOrbit_real_norm]
    exact crWitness_orbit.2
